import Mathlib

/-!
Verification of the chunking / quality-filter / indexing / retrieval pipeline
of the `friday` repository (scripts `02_process_docs.py`, `04_index_qdrant.py`,
`05_test_retrieval.py`), as a shallow embedding.

Text is modelled at the character level (`List Char`); Python's float ratio
thresholds `0.05` and `0.3` are modelled as the exact rationals `1/20` and
`3/10`, and float similarity scores as `ℚ`.
-/

namespace Friday

/-- A processed chunk record as built by `DocumentProcessor._create_metadata`:
`{id, content, metadata: {source, chunk_index, category}}`. -/
structure Chunk where
  id : Nat
  content : List Char
  source : List Char
  chunk_index : Nat
  category : List Char
deriving DecidableEq

/-- The state of `DocumentProcessor` (`02_process_docs.py`): the output
directory and the window size, overlap and global chunk counter set in
`__init__`. -/
structure DocumentProcessor where
  output_dir : List Char
  chunk_size : Nat
  chunk_overlap : Nat
  chunk_counter : Nat
deriving DecidableEq

/-- `DocumentProcessor.__init__(output_dir)`: `chunk_size = 512`,
`chunk_overlap = 50`, `chunk_counter = 0`. -/
def DocumentProcessor.init (dir : List Char) : DocumentProcessor :=
  ⟨dir, 512, 50, 0⟩

/-- Python `text.split()`: split on whitespace, dropping empty tokens. -/
def splitWords (text : List Char) : List (List Char) :=
  (text.splitOnP (fun c => c.isWhitespace)).filter (fun w => !w.isEmpty)

/-- Python `" ".join(ws)` at the character level. -/
def joinWords : List (List Char) → List Char
  | [] => []
  | [w] => w
  | w :: ws => w ++ ' ' :: joinWords ws

/-- Python `range(0, stop, step)` for positive `step`. -/
def pyRange (stop step : Nat) : List Nat :=
  List.range' 0 ((stop + step - 1) / step) step

/-- `DocumentProcessor._chunk_text`, at the word level: for
`i in range(0, len(words), chunk_size - chunk_overlap)` join
`words[i : i + chunk_size]` with single spaces and keep the window when its
joined length exceeds 50 characters. -/
def chunkWords (p : DocumentProcessor) (words : List (List Char)) : List (List Char) :=
  ((pyRange words.length (p.chunk_size - p.chunk_overlap)).map
      (fun i => joinWords ((words.drop i).take p.chunk_size))).filter
    (fun c => 50 < c.length)

/-- `DocumentProcessor._chunk_text` on a document's text. -/
def chunkText (p : DocumentProcessor) (text : List Char) : List (List Char) :=
  chunkWords p (splitWords text)

/-- The word-start offsets of the windows `_chunk_text` keeps, in loop order. -/
def keptStarts (p : DocumentProcessor) (words : List (List Char)) : List Nat :=
  (pyRange words.length (p.chunk_size - p.chunk_overlap)).filter
    (fun i => 50 < (joinWords ((words.drop i).take p.chunk_size)).length)

/-- Python substring membership `pat in s` on character lists. -/
def hasSub (pat : List Char) : List Char → Bool
  | [] => pat.isEmpty
  | c :: t => pat.isPrefixOf (c :: t) || hasSub pat t

/-- `DocumentProcessor._categorize`: lowercase the path and test substrings in
the fixed priority order of the source's `if` chain. -/
def categorize (path : List Char) : List Char :=
  let p := path.map Char.toLower
  if hasSub ("grpc".toList) p then "grpc".toList
  else if hasSub ("gnmi".toList) p then "gnmi".toList
  else if hasSub ("yang".toList) p || hasSub ("openconfig".toList) p then "yang".toList
  else if hasSub ("debug".toList) p then "debugging".toList
  else if hasSub ("network".toList) p || hasSub ("tcp".toList) p then "network".toList
  else "general".toList

/-- The `for i, chunk in enumerate(chunks)` loop of `_create_metadata`:
arguments are the enumeration index, the counter value so far and the
remaining chunk texts; it returns the built records and the final counter. -/
def createMetadataLoop (source cat : List Char) :
    Nat → Nat → List (List Char) → List Chunk × Nat
  | _, counter, [] => ([], counter)
  | i, counter, c :: rest =>
    let r := createMetadataLoop source cat (i + 1) (counter + 1) rest
    (⟨counter + 1, c, source, i, cat⟩ :: r.1, r.2)

/-- `DocumentProcessor._create_metadata`: assign `id = ++chunk_counter` to each
chunk text in order, attaching source, 0-based chunk index and category. -/
def createMetadata (p : DocumentProcessor) (chunks : List (List Char))
    (source : List Char) : List Chunk × DocumentProcessor :=
  let r := createMetadataLoop source (categorize source) 0 p.chunk_counter chunks
  (r.1, ⟨p.output_dir, p.chunk_size, p.chunk_overlap, r.2⟩)

/-- A file in a directory listing; `content = none` models a file whose
`open`/`read` raises an exception. -/
structure FileEntry where
  path : List Char
  content : Option (List Char)
deriving DecidableEq

/-- `DocumentProcessor.process_file`: on any read exception return `[]`
(the `try`/`except` at the top), otherwise chunk the text and build
metadata records. -/
def processFile (p : DocumentProcessor) (f : FileEntry) :
    List Chunk × DocumentProcessor :=
  match f.content with
  | none => ([], p)
  | some text => createMetadata p (chunkText p text) f.path

/-- `Path(input_dir).rglob("*.md")`: of the recursive listing, the files whose
path matches `*.md`, i.e. ends in `.md`. -/
def mdFiles (files : List FileEntry) : List FileEntry :=
  files.filter (fun f => (".md".toList).isSuffixOf f.path)

/-- The `for file_path in ...` loop of `process_directory`: process each file
in listing order, threading the processor state and concatenating chunks. -/
def processFiles : DocumentProcessor → List FileEntry → List Chunk × DocumentProcessor
  | p, [] => ([], p)
  | p, f :: rest =>
    let r := processFile p f
    let r2 := processFiles r.2 rest
    (r.1 ++ r2.1, r2.2)

/-- `DocumentProcessor.process_directory`: process every `*.md` file of the
recursive listing. -/
def processDirectory (p : DocumentProcessor) (files : List FileEntry) :
    List Chunk × DocumentProcessor :=
  processFiles p (mdFiles files)

/-- The number of alphabetic characters of a content string
(`sum(c.isalpha() for c in content)`). -/
def countAlpha (content : List Char) : Nat :=
  content.countP (fun c => c.isAlpha)

/-- The per-chunk keep decision of `quality_filter`, in the source's test
order: reject when `len < 50`, when the space ratio is `< 0.05` (exactly:
`20 * spaces < len`) or when the alphabetic ratio is `< 0.3` (exactly:
`10 * alpha < 3 * len`). The length test comes first, so the ratio
denominators are only ever formed for `len ≥ 50 > 0`. -/
def qualityKeep (content : List Char) : Bool :=
  if content.length < 50 then false
  else if 20 * content.count ' ' < content.length then false
  else if 10 * countAlpha content < 3 * content.length then false
  else true

/-- `DocumentProcessor.quality_filter`. -/
def qualityFilter (chunks : List Chunk) : List Chunk :=
  chunks.filter (fun c => qualityKeep c.content)

/-- The per-directory loop of `main` in `02_process_docs.py`: skip directories
that do not exist (`none`), otherwise process, quality-filter, and extend
`all_chunks` with the filtered chunks; returns `all_chunks` and the final
processor state. -/
def mainRun : DocumentProcessor → List (Option (List FileEntry)) → List Chunk × DocumentProcessor
  | p, [] => ([], p)
  | p, none :: rest => mainRun p rest
  | p, some files :: rest =>
    let r := processDirectory p files
    let filtered := qualityFilter r.1
    let r2 := mainRun r.2 rest
    (filtered ++ r2.1, r2.2)

/-- `main` of `02_process_docs.py` on a corpus of (possibly missing)
directories, starting from the freshly constructed processor. -/
def mainChunks (corpus : List (Option (List FileEntry))) :
    List Chunk × DocumentProcessor :=
  mainRun (DocumentProcessor.init ("../data/processed".toList)) corpus

/-! ### Indexing stage (`04_index_qdrant.py`) -/

/-- Store-side failures of the vector index. -/
inductive StoreErr where
  | collectionNotFound
  | network
  | internal
deriving DecidableEq

/-- A chunk as read from `chunks_with_embeddings.json`: the `embedding` key
may be absent (`none`). -/
structure IndexChunk where
  id : Nat
  content : List Char
  source : List Char
  category : List Char
  embedding : Option (List ℚ)
deriving DecidableEq

/-- The record built for upsert (`PointStruct`): id, vector and payload
(content, source, category). -/
structure Point where
  id : Nat
  vector : List ℚ
  content : List Char
  source : List Char
  category : List Char
deriving DecidableEq

/-- Network/storage calls issued by `04_index_qdrant.py`, in issue order.
`upsert start size` is one batch upsert of `size` points starting at offset
`start`. -/
inductive Call where
  | deleteCollection
  | createCollection
  | upsert (start : Nat) (size : Nat)
  | getCollection
deriving DecidableEq

/-- Outcome of a run of `04_index_qdrant.py`'s `main`. -/
inductive IndexOutcome where
  | crashedEmpty
  | abortedNoEmbeddings
  | keyErrorMissingEmbedding
  | storeFailure (e : StoreErr)
  | completed (pointsCount : Nat)
deriving DecidableEq

/-- Behaviour of the Qdrant store, as one oracle per call the script makes:
the delete result, the create result, the upsert result per batch start
offset, and the final `get_collection` result. -/
structure Store where
  deleteResult : Except StoreErr Unit
  createResult : Except StoreErr Unit
  upsertResult : Nat → Except StoreErr Unit
  getResult : Except StoreErr Nat

/-- Replace only the delete-call result of a store behaviour. -/
def setDeleteResult (st : Store) (r : Except StoreErr Unit) : Store :=
  ⟨r, st.createResult, st.upsertResult, st.getResult⟩

/-- The `for chunk in chunks` point-building loop: `chunk["embedding"]` raises
`KeyError` (`none` here) as soon as one chunk lacks its embedding. -/
def buildPoints : List IndexChunk → Option (List Point)
  | [] => some []
  | c :: rest =>
    match c.embedding with
    | none => none
    | some v =>
      match buildPoints rest with
      | none => none
      | some ps => some (⟨c.id, v, c.content, c.source, c.category⟩ :: ps)

/-- The batched upsert loop over `range(0, len(points), 100)`: each batch is
`points[i : i + 100]`; an upsert failure propagates immediately. -/
def upsertLoop (st : Store) (pts : List Point) : List Nat → List Call × Option StoreErr
  | [] => ([], none)
  | i :: rest =>
    match st.upsertResult i with
    | .error e => ([Call.upsert i ((pts.drop i).take 100).length], some e)
    | .ok _ =>
      let r := upsertLoop st pts rest
      (Call.upsert i ((pts.drop i).take 100).length :: r.1, r.2)

/-- `main` of `04_index_qdrant.py`: check `chunks[0]` for an `embedding` key
(crashing on an empty list, printing and returning when the key is absent),
then issue `delete_collection` inside `try`/`except: pass`, then
`create_collection`, then build all points (`KeyError` on a missing
embedding), then upsert in batches of 100 and finally `get_collection`.
Only the trace of store calls and the final outcome are observed. -/
def indexMain (st : Store) (chunks : List IndexChunk) : List Call × IndexOutcome :=
  match chunks with
  | [] => ([], .crashedEmpty)
  | c0 :: _ =>
    match c0.embedding with
    | none => ([], .abortedNoEmbeddings)
    | some _ =>
      match st.createResult with
      | .error e => ([.deleteCollection, .createCollection], .storeFailure e)
      | .ok _ =>
        match buildPoints chunks with
        | none => ([.deleteCollection, .createCollection], .keyErrorMissingEmbedding)
        | some pts =>
          let r := upsertLoop st pts (pyRange pts.length 100)
          match r.2 with
          | some e => ([.deleteCollection, .createCollection] ++ r.1, .storeFailure e)
          | none =>
            match st.getResult with
            | .error e =>
              ([.deleteCollection, .createCollection] ++ r.1 ++ [.getCollection],
                .storeFailure e)
            | .ok n =>
              ([.deleteCollection, .createCollection] ++ r.1 ++ [.getCollection],
                .completed n)

/-! ### Retrieval stage (`05_test_retrieval.py`) -/

/-- A scored search candidate: the index-assigned id and its similarity
score. -/
structure Candidate where
  id : Nat
  score : ℚ
deriving DecidableEq

/-- Ranking order of the retrieval contract: higher score first, ties broken
by ascending index-assigned id. -/
def candBefore (a b : Candidate) : Bool :=
  if b.score < a.score then true
  else if a.score = b.score then decide (a.id ≤ b.id)
  else false

/-- Insertion into a ranked list, preserving rank order. -/
def insertCand (c : Candidate) : List Candidate → List Candidate
  | [] => [c]
  | d :: ds => if candBefore c d then c :: d :: ds else d :: insertCand c ds

/-- Ranking of a candidate list by `candBefore` (insertion sort). -/
def sortCands : List Candidate → List Candidate
  | [] => []
  | c :: cs => insertCand c (sortCands cs)

/-- Modelled from the spec: the similarity search behind
`client.query_points(..., limit=k, score_threshold=t)` runs inside the
external Qdrant service, so its ranking code is not in `src/`. Per the spec's
retrieval contract the index returns up to `k` best-ranked candidates, every
candidate scoring below `t` is dropped, and the remainder is returned sorted
by descending score with ties broken by ascending id. -/
def retrieve (cands : List Candidate) (k : Nat) (t : ℚ) : List Candidate :=
  ((sortCands cands).take k).filter (fun c => t ≤ c.score)

/-! ### Id assignment machinery -/

theorem createMetadataLoop_ids (src cat : List Char) :
    ∀ (i c : Nat) (ts : List (List Char)),
      (createMetadataLoop src cat i c ts).1.map Chunk.id
          = List.range' (c + 1) ts.length 1
        ∧ (createMetadataLoop src cat i c ts).2 = c + ts.length := by
  intro i c ts
  induction ts generalizing i c with
  | nil => simp [createMetadataLoop]
  | cons t ts ih =>
    have h := ih (i + 1) (c + 1)
    simp only [createMetadataLoop, List.map_cons, List.length_cons, h.1, h.2]
    constructor
    · rw [List.range'_succ]
    · omega

theorem createMetadataLoop_source (src cat : List Char) :
    ∀ (i c : Nat) (ts : List (List Char)) (ch : Chunk),
      ch ∈ (createMetadataLoop src cat i c ts).1 → ch.source = src := by
  intro i c ts
  induction ts generalizing i c with
  | nil => simp [createMetadataLoop]
  | cons t ts ih =>
    intro ch hch
    simp only [createMetadataLoop, List.mem_cons] at hch
    rcases hch with h | h
    · rw [h]
    · exact ih (i + 1) (c + 1) ch h

theorem processFile_spec (p : DocumentProcessor) (f : FileEntry) :
    ∃ k, (processFile p f).1.map Chunk.id = List.range' (p.chunk_counter + 1) k 1
      ∧ (processFile p f).2
          = ⟨p.output_dir, p.chunk_size, p.chunk_overlap, p.chunk_counter + k⟩
      ∧ ∀ ch ∈ (processFile p f).1, ch.source = f.path := by
  match hf : f.content with
  | none =>
    refine ⟨0, ?_⟩
    simp [processFile, hf]
  | some text =>
    refine ⟨(chunkText p text).length, ?_⟩
    have h := createMetadataLoop_ids f.path (categorize f.path) 0 p.chunk_counter
      (chunkText p text)
    refine ⟨?_, ?_, ?_⟩
    · simpa [processFile, hf, createMetadata] using h.1
    · simp [processFile, hf, createMetadata, h.2]
    · intro ch hch
      refine createMetadataLoop_source f.path (categorize f.path) 0 p.chunk_counter
        (chunkText p text) ch ?_
      simpa [processFile, hf, createMetadata] using hch

theorem range'_add_one (s a b : Nat) :
    List.range' s (a + b) 1 = List.range' s a 1 ++ List.range' (s + a) b 1 := by
  have h := List.range'_append s a b 1
  rw [one_mul, Nat.add_comm b a] at h
  exact h.symm

theorem processFiles_spec (fs : List FileEntry) :
    ∀ p : DocumentProcessor,
      ∃ k, (processFiles p fs).1.map Chunk.id = List.range' (p.chunk_counter + 1) k 1
        ∧ (processFiles p fs).2
            = ⟨p.output_dir, p.chunk_size, p.chunk_overlap, p.chunk_counter + k⟩
        ∧ ∀ ch ∈ (processFiles p fs).1, ∃ f ∈ fs, ch.source = f.path := by
  induction fs with
  | nil =>
    intro p
    exact ⟨0, by simp [processFiles]⟩
  | cons f rest ih =>
    intro p
    obtain ⟨k1, hids1, hst1, hsrc1⟩ := processFile_spec p f
    obtain ⟨k2, hids2, hst2, hsrc2⟩ := ih (processFile p f).2
    have hc : (processFile p f).2.chunk_counter = p.chunk_counter + k1 := by rw [hst1]
    have ho : (processFile p f).2.output_dir = p.output_dir := by rw [hst1]
    have hs : (processFile p f).2.chunk_size = p.chunk_size := by rw [hst1]
    have hv : (processFile p f).2.chunk_overlap = p.chunk_overlap := by rw [hst1]
    rw [hc] at hids2
    rw [hc, ho, hs, hv] at hst2
    refine ⟨k1 + k2, ?_, ?_, ?_⟩
    · rw [Nat.add_right_comm p.chunk_counter k1 1] at hids2
      simp only [processFiles, List.map_append, hids1, hids2]
      rw [range'_add_one]
    · simp only [processFiles, hst2]
      rw [Nat.add_assoc]
    · intro ch hch
      simp only [processFiles, List.mem_append] at hch
      rcases hch with h | h
      · exact ⟨f, by simp, hsrc1 ch h⟩
      · obtain ⟨g, hg, hgs⟩ := hsrc2 ch h
        exact ⟨g, by simp [hg], hgs⟩

theorem processDirectory_spec (p : DocumentProcessor) (files : List FileEntry) :
    ∃ k, (processDirectory p files).1.map Chunk.id
        = List.range' (p.chunk_counter + 1) k 1
      ∧ (processDirectory p files).2
          = ⟨p.output_dir, p.chunk_size, p.chunk_overlap, p.chunk_counter + k⟩
      ∧ ∀ ch ∈ (processDirectory p files).1,
          ∃ f ∈ mdFiles files, ch.source = f.path :=
  processFiles_spec (mdFiles files) p

theorem mainRun_spec (dirs : List (Option (List FileEntry))) :
    ∀ p : DocumentProcessor,
      ∃ k, List.Sublist ((mainRun p dirs).1.map Chunk.id)
            (List.range' (p.chunk_counter + 1) k 1)
        ∧ (mainRun p dirs).2
            = ⟨p.output_dir, p.chunk_size, p.chunk_overlap, p.chunk_counter + k⟩ := by
  induction dirs with
  | nil =>
    intro p
    exact ⟨0, by simp [mainRun]⟩
  | cons d rest ih =>
    intro p
    match d with
    | none =>
      obtain ⟨k, hk⟩ := ih p
      exact ⟨k, by simpa [mainRun] using hk⟩
    | some files =>
      obtain ⟨k1, hids1, hst1, -⟩ := processDirectory_spec p files
      obtain ⟨k2, hids2, hst2⟩ := ih (processDirectory p files).2
      have hc : (processDirectory p files).2.chunk_counter = p.chunk_counter + k1 := by
        rw [hst1]
      have ho : (processDirectory p files).2.output_dir = p.output_dir := by rw [hst1]
      have hs : (processDirectory p files).2.chunk_size = p.chunk_size := by rw [hst1]
      have hv : (processDirectory p files).2.chunk_overlap = p.chunk_overlap := by
        rw [hst1]
      rw [hc] at hids2
      rw [hc, ho, hs, hv] at hst2
      refine ⟨k1 + k2, ?_, ?_⟩
      · have hsub1 : List.Sublist
            ((qualityFilter (processDirectory p files).1).map Chunk.id)
            (List.range' (p.chunk_counter + 1) k1 1) := by
          rw [← hids1]
          exact List.Sublist.map Chunk.id (List.filter_sublist _)
        rw [Nat.add_right_comm p.chunk_counter k1 1] at hids2
        simp only [mainRun, List.map_append]
        rw [range'_add_one]
        exact List.Sublist.append hsub1 hids2
      · simp only [mainRun, hst2]
        rw [Nat.add_assoc]

/-! ### Claim theorems: processing stage -/

/-- **C1.** The only configuration the code can construct is
`chunk_size = 512`, `chunk_overlap = 50` (`__init__` takes no window
parameters), so no configuration with `O ≥ W` ever exists, and every
processor state a run passes through — from construction to the end of
`main` — satisfies the chunking precondition `O < W`. -/
theorem config_overlap_lt_window (dir : List Char)
    (corpus : List (Option (List FileEntry))) :
    (DocumentProcessor.init dir).chunk_overlap < (DocumentProcessor.init dir).chunk_size
      ∧ (mainRun (DocumentProcessor.init dir) corpus).2.chunk_overlap
          < (mainRun (DocumentProcessor.init dir) corpus).2.chunk_size := by
  obtain ⟨k, -, hst⟩ := mainRun_spec corpus (DocumentProcessor.init dir)
  rw [hst]
  exact ⟨by norm_num [DocumentProcessor.init], by norm_num [DocumentProcessor.init]⟩

/-- **C1 witness.** Instantiation at a concrete directory and corpus. -/
theorem config_overlap_lt_window_witness :
    (DocumentProcessor.init ['o']).chunk_overlap
        < (DocumentProcessor.init ['o']).chunk_size
      ∧ (mainRun (DocumentProcessor.init ['o']) []).2.chunk_overlap
          < (mainRun (DocumentProcessor.init ['o']) []).2.chunk_size :=
  config_overlap_lt_window ['o'] []

/-- **C2 counterexample.** A two-file corpus: the first file is one 60-char
word (its chunk passes `_chunk_text`'s length test but fails the space-ratio
quality test), the second file is 26 two-letter words (its chunk survives).
The counter is incremented for both chunks, before filtering, so the single
surviving chunk carries id 2 — not the consecutive `1..N = [1]` the claim
asserts. -/
theorem surviving_ids_not_consecutive :
    (mainChunks [some [⟨"a.md".toList, some (List.replicate 60 'a')⟩,
        ⟨"b.md".toList, some (joinWords (List.replicate 26 ['a', 'b']))⟩]]).1.map Chunk.id
        = [2]
      ∧ ([2] : List Nat) ≠ [1] :=
  ⟨by decide, by decide⟩

/-- **C2 amended.** `id = ++counter` is assigned to every chunk finalized by
the chunker, in finalization order and *before* the QualityFilter runs; the
surviving chunks therefore carry a strictly increasing subsequence of the ids
`1..M` (`M` = final counter = number of chunks finalized), not necessarily
the consecutive `1..N`. -/
theorem surviving_ids_subsequence (corpus : List (Option (List FileEntry))) :
    List.Sublist ((mainChunks corpus).1.map Chunk.id)
      (List.range' 1 (mainChunks corpus).2.chunk_counter 1) := by
  unfold mainChunks
  obtain ⟨k, hsub, hst⟩ :=
    mainRun_spec corpus (DocumentProcessor.init ("../data/processed".toList))
  rw [hst]
  simpa [DocumentProcessor.init] using hsub

/-- **C8.** Across an entire run — any number of directories and documents —
the ids carried by the emitted chunk collection are strictly increasing in
emission order, hence never reused: they are pairwise `<` and nodup. -/
theorem run_ids_strictly_increasing (corpus : List (Option (List FileEntry))) :
    ((mainChunks corpus).1.map Chunk.id).Pairwise (· < ·)
      ∧ ((mainChunks corpus).1.map Chunk.id).Nodup := by
  unfold mainChunks
  obtain ⟨k, hsub, -⟩ :=
    mainRun_spec corpus (DocumentProcessor.init ("../data/processed".toList))
  have hp : (List.range' ((DocumentProcessor.init
      ("../data/processed".toList)).chunk_counter + 1) k 1).Pairwise (· < ·) :=
    List.pairwise_lt_range' _ k 1 (by norm_num)
  have hlt := List.Pairwise.sublist hsub hp
  exact ⟨hlt, hlt.imp Nat.ne_of_lt⟩

theorem processFiles_append (xs ys : List FileEntry) :
    ∀ p, processFiles p (xs ++ ys)
      = ((processFiles p xs).1 ++ (processFiles (processFiles p xs).2 ys).1,
          (processFiles (processFiles p xs).2 ys).2) := by
  induction xs with
  | nil => intro p; simp [processFiles]
  | cons f rest ih =>
    intro p
    simp only [List.cons_append, processFiles, List.append_eq]
    rw [ih]
    simp [List.append_assoc]

theorem processFiles_skip (q : DocumentProcessor) (pth : List Char)
    (A B : List FileEntry) :
    processFiles q (A ++ ⟨pth, none⟩ :: B) = processFiles q (A ++ B) := by
  rw [processFiles_append, processFiles_append]
  simp [processFiles, processFile]

/-- **C9.** A file whose read raises returns `[]` from `process_file` with the
processor state (in particular the id counter) unchanged; consequently
removing such a file from a directory listing changes nothing at all about
the directory's output — later documents get the same ids. -/
theorem failed_read_leaves_state (p : DocumentProcessor) (pth : List Char)
    (fs1 fs2 : List FileEntry) :
    processFile p ⟨pth, none⟩ = ([], p)
      ∧ processDirectory p (fs1 ++ ⟨pth, none⟩ :: fs2)
          = processDirectory p (fs1 ++ fs2) := by
  refine ⟨rfl, ?_⟩
  unfold processDirectory mdFiles
  rw [List.filter_append, List.filter_append, List.filter_cons]
  split
  · exact processFiles_skip p pth _ _
  · rfl

/-- **C10.** Every chunk produced by `process_directory` originates from a
file of the recursive listing whose path matches `*.md`: the chunk's recorded
source path ends in `.md`, so files of any other extension never contribute
a chunk. -/
theorem only_md_files_contribute (p : DocumentProcessor) (files : List FileEntry) :
    ((processDirectory p files).1.all
        (fun c => (".md".toList).isSuffixOf c.source)) = true := by
  rw [List.all_eq_true]
  intro c hc
  obtain ⟨k, -, -, hsrc⟩ := processDirectory_spec p files
  obtain ⟨f, hf, hfs⟩ := hsrc c hc
  have := (List.mem_filter.mp hf).2
  simp only [hfs]
  exact this

theorem qualityKeep_iff (content : List Char) :
    qualityKeep content = true
      ↔ 50 ≤ content.length
        ∧ content.length ≤ 20 * content.count ' '
        ∧ 3 * content.length ≤ 10 * countAlpha content := by
  unfold qualityKeep
  constructor
  · intro h
    by_cases h1 : content.length < 50
    · rw [if_pos h1] at h; cases h
    · rw [if_neg h1] at h
      by_cases h2 : 20 * content.count ' ' < content.length
      · rw [if_pos h2] at h; cases h
      · rw [if_neg h2] at h
        by_cases h3 : 10 * countAlpha content < 3 * content.length
        · rw [if_pos h3] at h; cases h
        · omega
  · intro h
    rw [if_neg (by omega), if_neg (by omega), if_neg (by omega)]

/-- **C7.** `quality_filter` output is a subsequence of its input (same
records, same order); every survivor's content has length ≥ 50, space ratio
≥ 0.05 (`len ≤ 20·spaces`) and alphabetic ratio ≥ 0.3 (`3·len ≤ 10·alpha`);
every rejected chunk violates at least one of the three; and empty content is
rejected by the length test alone, before any ratio (and hence any division)
is formed. -/
theorem quality_filter_subset (chunks : List Chunk) :
    List.Sublist (qualityFilter chunks) chunks
      ∧ (∀ c ∈ qualityFilter chunks,
          50 ≤ c.content.length
            ∧ c.content.length ≤ 20 * c.content.count ' '
            ∧ 3 * c.content.length ≤ 10 * countAlpha c.content)
      ∧ (∀ c ∈ chunks, c ∉ qualityFilter chunks →
          c.content.length < 50
            ∨ 20 * c.content.count ' ' < c.content.length
            ∨ 10 * countAlpha c.content < 3 * c.content.length)
      ∧ qualityKeep [] = false := by
  refine ⟨List.filter_sublist _, ?_, ?_, rfl⟩
  · intro c hc
    exact (qualityKeep_iff c.content).mp (List.mem_filter.mp hc).2
  · intro c hc hnc
    have hk : ¬ qualityKeep c.content = true := by
      intro hkeep
      exact hnc (List.mem_filter.mpr ⟨hc, hkeep⟩)
    rw [qualityKeep_iff] at hk
    omega

/-- **C7 witness.** The survivor conditions, instantiated on a one-chunk list
whose content is 26 two-letter words joined by spaces. -/
theorem quality_filter_subset_witness :
    50 ≤ (joinWords (List.replicate 26 ['a', 'b'])).length
      ∧ (joinWords (List.replicate 26 ['a', 'b'])).length
          ≤ 20 * (joinWords (List.replicate 26 ['a', 'b'])).count ' '
      ∧ 3 * (joinWords (List.replicate 26 ['a', 'b'])).length
          ≤ 10 * countAlpha (joinWords (List.replicate 26 ['a', 'b'])) :=
  (quality_filter_subset [⟨1, joinWords (List.replicate 26 ['a', 'b']), [], 0, []⟩]).2.1
    ⟨1, joinWords (List.replicate 26 ['a', 'b']), [], 0, []⟩ (by decide)

/-! ### Claim theorems: indexing stage -/

/-- **C3 counterexample.** A chunk list whose first chunk carries an
embedding (of dimension 1, not 384) and whose second chunk lacks one passes
the only validation the script performs (`"embedding" not in chunks[0]`):
the run proceeds to delete and create the collection — two network calls —
before the missing embedding surfaces as a `KeyError`, contradicting the
claimed whole-collection, pre-network dimension check. -/
theorem index_validation_counterexample :
    indexMain ⟨Except.ok (), Except.ok (), fun _ => Except.ok (), Except.ok 2⟩
        [⟨1, ['x'], [], [], some [(1 : ℚ)]⟩, ⟨2, ['y'], [], [], none⟩]
      = ([Call.deleteCollection, Call.createCollection],
          IndexOutcome.keyErrorMissingEmbedding)
    ∧ ([Call.deleteCollection, Call.createCollection] : List Call) ≠ [] :=
  ⟨by decide, by decide⟩

/-- **C3 amended.** Before any network or storage call the indexing stage
checks only that the *first* chunk has an `embedding` key — aborting with the
no-embeddings error when it is absent — and never checks the dimension;
whenever the first chunk has an embedding (of any dimension), the collection
delete and create calls are issued before any other chunk is examined. -/
theorem index_first_chunk_check (st : Store) (c : IndexChunk)
    (cs : List IndexChunk) :
    (c.embedding = none →
        indexMain st (c :: cs) = ([], IndexOutcome.abortedNoEmbeddings))
      ∧ (c.embedding.isSome = true →
          (indexMain st (c :: cs)).1.take 2
            = [Call.deleteCollection, Call.createCollection]) := by
  constructor
  · intro h
    simp [indexMain, h]
  · intro h
    obtain ⟨v, hv⟩ := Option.isSome_iff_exists.mp h
    simp only [indexMain, hv]
    repeat' split
    all_goals rfl

/-- **C3 amended witness.** The first-chunk check at a concrete input. -/
theorem index_first_chunk_check_witness :
    indexMain ⟨Except.ok (), Except.ok (), fun _ => Except.ok (), Except.ok 0⟩
        [⟨1, [], [], [], none⟩]
      = ([], IndexOutcome.abortedNoEmbeddings) :=
  (index_first_chunk_check
    ⟨Except.ok (), Except.ok (), fun _ => Except.ok (), Except.ok 0⟩
    ⟨1, [], [], [], none⟩ []).1 rfl

theorem upsertLoop_deleteIrrelevant (st : Store) (r : Except StoreErr Unit)
    (pts : List Point) : ∀ idxs,
    upsertLoop ⟨r, st.createResult, st.upsertResult, st.getResult⟩ pts idxs
      = upsertLoop st pts idxs := by
  intro idxs
  induction idxs with
  | nil => rfl
  | cons i rest ih => simp only [upsertLoop, ih]

/-- **C4.** The `try: client.delete_collection(...) except: pass` swallows
*every* delete failure, not only delete-of-nonexistent: at a store whose
delete fails with a network error (and everything else succeeds), the stage
runs to completion instead of aborting; indeed `indexMain` never consults
the delete result at all. Create and upsert failures, by contrast, do
propagate (shown by `index_store_failures_propagate` below). -/
theorem delete_failure_swallowed :
    (indexMain ⟨Except.error StoreErr.network, Except.ok (),
          fun _ => Except.ok (), Except.ok 2⟩
        [⟨1, ['x'], [], [], some [(1 : ℚ)]⟩, ⟨2, ['y'], [], [], some [(1 : ℚ)]⟩])
      = ([Call.deleteCollection, Call.createCollection, Call.upsert 0 2,
          Call.getCollection], IndexOutcome.completed 2)
    ∧ ∀ (st : Store) (chunks : List IndexChunk) (r : Except StoreErr Unit),
        indexMain (setDeleteResult st r) chunks = indexMain st chunks := by
  refine ⟨by decide, ?_⟩
  intro st chunks r
  cases chunks with
  | nil => rfl
  | cons c cs =>
    cases hc : c.embedding with
    | none => simp [indexMain, hc]
    | some v => simp [indexMain, hc, setDeleteResult, upsertLoop_deleteIrrelevant]

/-- The propagation half of the store-failure design: a failing
`create_collection` aborts the stage with that store error, and a failing
batch upsert stops the upsert loop at the failing batch with that store
error. -/
theorem index_store_failures_propagate (st : Store) (c : IndexChunk)
    (cs : List IndexChunk) (v : List ℚ) (e : StoreErr) (pts : List Point)
    (i : Nat) (rest : List Nat) :
    (c.embedding = some v → st.createResult = Except.error e →
        indexMain st (c :: cs)
          = ([Call.deleteCollection, Call.createCollection],
              IndexOutcome.storeFailure e))
      ∧ (st.upsertResult i = Except.error e →
          upsertLoop st pts (i :: rest)
            = ([Call.upsert i ((pts.drop i).take 100).length], some e)) := by
  constructor
  · intro hv hcr
    simp [indexMain, hv, hcr]
  · intro hu
    simp [upsertLoop, hu]

/-- Witness for `index_store_failures_propagate` at a concrete store. -/
theorem index_store_failures_propagate_witness :
    indexMain ⟨Except.ok (), Except.error StoreErr.internal,
          fun _ => Except.ok (), Except.ok 0⟩
        [⟨1, [], [], [], some []⟩]
      = ([Call.deleteCollection, Call.createCollection],
          IndexOutcome.storeFailure StoreErr.internal) :=
  (index_store_failures_propagate
    ⟨Except.ok (), Except.error StoreErr.internal, fun _ => Except.ok (),
      Except.ok 0⟩
    ⟨1, [], [], [], some []⟩ [] [] StoreErr.internal [] 0 []).1 rfl rfl

/-! ### Claim theorems: retrieval stage -/

theorem candBefore_iff (a b : Candidate) :
    candBefore a b = true
      ↔ b.score < a.score ∨ (a.score = b.score ∧ a.id ≤ b.id) := by
  unfold candBefore
  by_cases h1 : b.score < a.score
  · simp [h1]
  · by_cases h2 : a.score = b.score
    · simp [h1, h2]
    · simp [h1, h2]

theorem candBefore_total (a b : Candidate) :
    candBefore a b = true ∨ candBefore b a = true := by
  rw [candBefore_iff, candBefore_iff]
  rcases lt_trichotomy a.score b.score with h | h | h
  · right; left; exact h
  · rcases Nat.le_total a.id b.id with hi | hi
    · left; right; exact ⟨h, hi⟩
    · right; right; exact ⟨h.symm, hi⟩
  · left; left; exact h

theorem candBefore_trans (a b c : Candidate) (hab : candBefore a b = true)
    (hbc : candBefore b c = true) : candBefore a c = true := by
  rw [candBefore_iff] at hab hbc ⊢
  rcases hab with h1 | ⟨h1, h1'⟩ <;> rcases hbc with h2 | ⟨h2, h2'⟩
  · left; exact lt_trans h2 h1
  · left; rwa [← h2]
  · left; rwa [h1]
  · right; exact ⟨h1.trans h2, le_trans h1' h2'⟩

theorem mem_insertCand (x c : Candidate) :
    ∀ l, x ∈ insertCand c l ↔ x = c ∨ x ∈ l := by
  intro l
  induction l with
  | nil => simp [insertCand]
  | cons d ds ih =>
    unfold insertCand
    by_cases h : candBefore c d = true
    · simp [h, List.mem_cons]
    · simp only [h, if_false, Bool.false_eq_true, List.mem_cons, ih]
      tauto

theorem pairwise_insertCand (c : Candidate) :
    ∀ l, l.Pairwise (fun a b => candBefore a b = true) →
      (insertCand c l).Pairwise (fun a b => candBefore a b = true) := by
  intro l
  induction l with
  | nil => intro _; simp [insertCand]
  | cons d ds ih =>
    intro hp
    rw [List.pairwise_cons] at hp
    obtain ⟨hd, hds⟩ := hp
    unfold insertCand
    by_cases h : candBefore c d = true
    · rw [if_pos h, List.pairwise_cons]
      constructor
      · intro x hx
        rcases List.mem_cons.mp hx with rfl | hx'
        · exact h
        · exact candBefore_trans c d x h (hd x hx')
      · exact List.Pairwise.cons hd hds
    · rw [if_neg h, List.pairwise_cons]
      constructor
      · intro x hx
        rcases (mem_insertCand x c ds).mp hx with hxc | hx'
        · rw [hxc]
          rcases candBefore_total c d with hcd | hdc
          · exact absurd hcd h
          · exact hdc
        · exact hd x hx'
      · exact ih hds

theorem pairwise_sortCands :
    ∀ l, (sortCands l).Pairwise (fun a b => candBefore a b = true) := by
  intro l
  induction l with
  | nil => simp [sortCands]
  | cons c cs ih => exact pairwise_insertCand c (sortCands cs) ih

/-- **C5.** Per the spec-modelled retrieval contract: no returned candidate
scores below the threshold `t`; the result is sorted by descending score with
ties broken by ascending id; the empty result is an ordinary value (not an
error); and on scores `[0.91, 0.77, 0.77, 0.42]` with threshold `0.5` and
limit 5 the output is exactly the three candidates `0.91, 0.77, 0.77` with
the tie ordered by ascending id. -/
theorem retrieval_ranking (cands : List Candidate) (k : Nat) (t : ℚ) :
    (∀ c ∈ retrieve cands k t, t ≤ c.score)
      ∧ (retrieve cands k t).Pairwise
          (fun a b => b.score < a.score ∨ (a.score = b.score ∧ a.id ≤ b.id))
      ∧ retrieve [] k t = []
      ∧ retrieve [⟨1, 91/100⟩, ⟨2, 77/100⟩, ⟨3, 77/100⟩, ⟨4, 42/100⟩] 5 (1/2)
          = [⟨1, 91/100⟩, ⟨2, 77/100⟩, ⟨3, 77/100⟩]
      ∧ retrieve [⟨1, 1/10⟩] 5 (1/2) = [] := by
  refine ⟨?_, ?_, by simp [retrieve, sortCands], ?_, ?_⟩
  · intro c hc
    have h := (List.mem_filter.mp hc).2
    simpa using h
  · have hs := pairwise_sortCands cands
    have h1 : (List.take k (sortCands cands)).Pairwise
        (fun a b => candBefore a b = true) :=
      List.Pairwise.sublist (List.take_sublist k _) hs
    have h2 : (retrieve cands k t).Pairwise (fun a b => candBefore a b = true) :=
      List.Pairwise.sublist (List.filter_sublist _) h1
    exact h2.imp (fun h => (candBefore_iff _ _).mp h)
  · norm_num [retrieve, sortCands, insertCand, candBefore]
  · norm_num [retrieve, sortCands, insertCand, candBefore]

/-- **C5 witness.** The threshold guarantee applied to a concrete singleton
query result. -/
theorem retrieval_ranking_witness :
    (1 : ℚ) / 2 ≤ (Candidate.mk 1 (91 / 100)).score :=
  (retrieval_ranking [⟨1, 91 / 100⟩] 5 ((1 : ℚ) / 2)).1 ⟨1, 91 / 100⟩
    (by norm_num [retrieve, sortCands, insertCand, candBefore])

/-! ### Claim theorems: chunk window offsets (C6) -/

theorem joinWords_length_lb :
    ∀ ws : List (List Char), (∀ w ∈ ws, w ≠ []) →
      2 * ws.length ≤ (joinWords ws).length + 1 := by
  intro ws
  induction ws with
  | nil => intro _; simp [joinWords]
  | cons w tl ih =>
    intro h
    have hw : 1 ≤ w.length := List.length_pos.mpr (h w (List.mem_cons_self w tl))
    cases tl with
    | nil => simp [joinWords]; omega
    | cons x t =>
      have hrest := ih (fun y hy => h y (List.mem_cons_of_mem w hy))
      simp only [joinWords, List.length_append, List.length_cons] at *
      omega

theorem chunkKeep_of_words (words : List (List Char)) (hw : ∀ w ∈ words, w ≠ [])
    (i : Nat) (hi : i < words.length) (h26 : 26 ≤ words.length - i) :
    50 < (joinWords ((words.drop i).take 512)).length := by
  have hmem : ∀ w ∈ (words.drop i).take 512, w ≠ [] := by
    intro w hm
    exact hw w (List.drop_subset i words (List.mem_of_mem_take hm))
  have hlb := joinWords_length_lb ((words.drop i).take 512) hmem
  have hlen : ((words.drop i).take 512).length = min 512 (words.length - i) := by
    rw [List.length_take, List.length_drop]
  have h26' : 26 ≤ ((words.drop i).take 512).length := by
    rw [hlen]; omega
  omega

theorem lt_ceil_462 (j n : Nat) : j < (n + 462 - 1) / 462 ↔ 462 * j < n := by
  rw [Nat.lt_iff_add_one_le, Nat.le_div_iff_mul_le (by norm_num : 0 < 462)]
  omega

theorem keptStarts_init (dir : List Char) (words : List (List Char)) :
    keptStarts (DocumentProcessor.init dir) words
      = (List.range' 0 ((words.length + 462 - 1) / 462) 462).filter
          (fun i => 50 < (joinWords ((words.drop i).take 512)).length) := rfl

theorem keptStarts_init_cases (dir : List Char) (words : List (List Char))
    (hw : ∀ w ∈ words, w ≠ []) :
    keptStarts (DocumentProcessor.init dir) words
        = List.range' 0 ((words.length + 462 - 1) / 462) 462
      ∨ (∃ k, (words.length + 462 - 1) / 462 = k + 1
          ∧ keptStarts (DocumentProcessor.init dir) words = List.range' 0 k 462
          ∧ words.length ≤ 462 * k + 25) := by
  rw [keptStarts_init]
  cases hKe : (words.length + 462 - 1) / 462 with
  | zero => left; rfl
  | succ k =>
    rw [List.range'_concat, List.filter_append]
    have hall : (List.range' 0 k 462).filter
        (fun i => 50 < (joinWords ((words.drop i).take 512)).length)
          = List.range' 0 k 462 := by
      rw [List.filter_eq_self]
      intro i hi
      obtain ⟨j, hj, hij⟩ := List.mem_range'.mp hi
      have h1 : 462 * (j + 1) < words.length := by
        refine (lt_ceil_462 (j + 1) words.length).mp ?_
        omega
      have hilt : i < words.length := by omega
      have h26 : 26 ≤ words.length - i := by omega
      simpa using chunkKeep_of_words words hw i hilt h26
    rw [hall]
    by_cases hlast : 50 < (joinWords ((words.drop (462 * k)).take 512)).length
    · left
      congr 1
      simp [hlast]
    · right
      refine ⟨k, rfl, ?_, ?_⟩
      · simp [hlast]
      · have hklt : 462 * k < words.length := by
          refine (lt_ceil_462 k words.length).mp ?_
          omega
        by_contra hcon
        push_neg at hcon
        exact hlast (chunkKeep_of_words words hw (462 * k) (by omega) (by omega))

theorem chunkWords_eq_map (p : DocumentProcessor) (words : List (List Char)) :
    chunkWords p words
      = (keptStarts p words).map
          (fun i => joinWords ((words.drop i).take p.chunk_size)) := by
  unfold chunkWords keptStarts
  rw [List.filter_map]
  rfl

theorem chunkWords_all_gt (p : DocumentProcessor) (words : List (List Char)) :
    ∀ c ∈ chunkWords p words, 50 < c.length := by
  intro c hc
  have h := (List.mem_filter.mp hc).2
  simpa using h

/-- **C6.** For the configuration the code constructs (`W = 512`, `O = 50`,
stride `W − O = 462`) and any document (any word list with nonempty words,
which is what Python `split()` yields): the word-start offsets of the kept
windows are an initial run `0, 462, 924, …` of consecutive multiples of the
stride; the last kept window reaches the end of the document
(`min (l + 512) n = n`, i.e. its end offset is the word count); and a
600-word document yields exactly the two windows starting at 0 and 462, each
with joined length over 50 characters. -/
theorem chunk_offsets (dir : List Char) (words : List (List Char))
    (hw : ∀ w ∈ words, w ≠ []) :
    (∃ m, keptStarts (DocumentProcessor.init dir) words
        = List.range' 0 m ((DocumentProcessor.init dir).chunk_size
            - (DocumentProcessor.init dir).chunk_overlap))
      ∧ (∀ l, (keptStarts (DocumentProcessor.init dir) words).getLast? = some l →
          min (l + (DocumentProcessor.init dir).chunk_size) words.length
            = words.length)
      ∧ (words.length = 600 →
          keptStarts (DocumentProcessor.init dir) words = [0, 462]
            ∧ (chunkWords (DocumentProcessor.init dir) words).length = 2
            ∧ ∀ c ∈ chunkWords (DocumentProcessor.init dir) words, 50 < c.length) := by
  have hfields : (DocumentProcessor.init dir).chunk_size
      - (DocumentProcessor.init dir).chunk_overlap = 462 := rfl
  have hsize : (DocumentProcessor.init dir).chunk_size = 512 := rfl
  rw [hfields, hsize]
  rcases keptStarts_init_cases dir words hw with hcase | ⟨k, hK, hks, hbound⟩
  · refine ⟨⟨(words.length + 462 - 1) / 462, hcase⟩, ?_, ?_⟩
    · intro l hl
      rw [hcase] at hl
      cases hKe : (words.length + 462 - 1) / 462 with
      | zero => rw [hKe] at hl; cases hl
      | succ k =>
        rw [hKe, List.range'_concat, List.getLast?_concat] at hl
        have hle : l = 0 + 462 * k := by
          injection hl with h
          omega
        have hnK : ¬ ((words.length + 462 - 1) / 462
            < (words.length + 462 - 1) / 462) := lt_irrefl _
        rw [lt_ceil_462] at hnK
        rw [hKe] at hnK
        have : words.length ≤ 462 * (k + 1) := by omega
        rw [Nat.min_eq_right (by omega)]
    · intro h600
      have hKval : (words.length + 462 - 1) / 462 = 2 := by
        rw [h600]
      have hks2 : keptStarts (DocumentProcessor.init dir) words = [0, 462] := by
        rw [hcase, hKval]
        rfl
      refine ⟨hks2, ?_, chunkWords_all_gt _ _⟩
      rw [chunkWords_eq_map, hks2]
      rfl
  · refine ⟨⟨k, hks⟩, ?_, ?_⟩
    · intro l hl
      rw [hks] at hl
      cases k with
      | zero => cases hl
      | succ k' =>
        rw [List.range'_concat, List.getLast?_concat] at hl
        have hle : l = 0 + 462 * k' := by
          injection hl with h
          omega
        rw [Nat.min_eq_right (by omega)]
    · intro h600
      rw [h600] at hbound
      have : (600 + 462 - 1) / 462 = 2 := by norm_num
      rw [h600] at hK
      omega

/-- **C6 witness.** The 600-word scenario instantiated on a concrete
600-word document. -/
theorem chunk_offsets_witness :
    keptStarts (DocumentProcessor.init []) (List.replicate 600 ['a']) = [0, 462]
      ∧ (chunkWords (DocumentProcessor.init []) (List.replicate 600 ['a'])).length = 2
      ∧ ∀ c ∈ chunkWords (DocumentProcessor.init []) (List.replicate 600 ['a']),
          50 < c.length :=
  (chunk_offsets [] (List.replicate 600 ['a'])
      (by
        intro w hwm
        rw [List.eq_of_mem_replicate hwm]
        simp)).2.2
    (by rw [List.length_replicate])

end Friday
